import Mathlib

/-!
Verification development for the `img-to-ascii` repository
(`src/converter.py` and `src/viewer.py`).

Rows of glyph text are modelled as `List Char` (Python `str`), frames as
lists of rows, and file bytes as `List Char` (the payloads here are utf-8
text, and `encode`/`decode` are inverse on it).  Fallible Python code
(index errors, `json.loads` failures) is modelled with `Option`.
-/

namespace ImgToAscii

/-- The escape character `\x1b` used by the color escape sequences. -/
def escChar : Char := '\x1b'

/-- Value of one decimal digit character, as used by Python `int(...)` on a
digit string: `digitsToNat` folds the digits left to right. -/
def digitsToNat (ds : List Char) : Nat :=
  ds.foldl (fun a c => 10 * a + (c.toNat - 48)) 0

/-- Decimal rendering helper with explicit fuel; `fuel ≥ n` always suffices
because the argument is divided by ten at every step. -/
def toDecimalAux : Nat → Nat → List Char
  | 0, n => [Nat.digitChar (n % 10)]
  | fuel + 1, n =>
    if n < 10 then [Nat.digitChar n]
    else toDecimalAux fuel (n / 10) ++ [Nat.digitChar (n % 10)]

/-- Decimal rendering of a natural number, most significant digit first,
matching Python `f-string`/`str` formatting of a nonnegative `int`. -/
def toDecimal (n : Nat) : List Char := toDecimalAux n n

/-- `converter.py`: `ASCII_CHARS = "@%#*+=-:. "`, densest to sparsest. -/
def ASCII_CHARS : List Char := "@%#*+=-:. ".data

/-- `converter.py` `compress_line`: what the loop body appends when a run of
`count` copies of `prev` ends (`f"{prev}{count}"` when `count >= threshold`,
else the run literally). -/
def emitRun (prev : Char) (count threshold : Nat) : List Char :=
  if threshold ≤ count then prev :: toDecimal count
  else List.replicate count prev

/-- `converter.py` `compress_line`: the scanning loop, carrying the current
run character `prev` and its length `count` over the remaining input. -/
def compressAux (threshold : Nat) (prev : Char) (count : Nat) :
    List Char → List Char
  | [] => emitRun prev count threshold
  | c :: cs =>
    if c = prev then compressAux threshold prev (count + 1) cs
    else emitRun prev count threshold ++ compressAux threshold c 1 cs

/-- `converter.py` `compress_line(line, enabled, threshold)`.  When `enabled`
it reads `line[0]` unconditionally, so the empty line raises an
`IndexError`, modelled by `none`; when disabled the line is returned
unchanged. -/
def compress_line (line : List Char) (enabled : Bool) (threshold : Nat) :
    Option (List Char) :=
  if enabled = false then some line
  else
    match line with
    | [] => none
    | c :: cs => some (compressAux threshold c 1 cs)

/-- `viewer.py` `unpack_line`: one pass of the scanning loop with explicit
fuel; one unit of fuel is spent per loop iteration, and since every
iteration consumes at least one character, `fuel ≥ line.length` always
suffices (`unpackFuel_congr`).  An `\x1b` at the current position is copied
through unchanged up to and including the next `'m'` (or to the end of the
input when no `'m'` follows); otherwise the regex `([^\d\x1b])(\d+)` is
tried: a non-digit character followed by a maximal digit run is repeated
that many times; otherwise one character is copied. -/
def unpackFuel : Nat → List Char → List Char
  | 0, l => l
  | _ + 1, [] => []
  | fuel + 1, c :: cs =>
    if c = escChar then
      match cs.dropWhile (fun x => !(x = 'm' : Bool)) with
      | [] => c :: cs.takeWhile (fun x => !(x = 'm' : Bool))
      | m :: rest =>
        c :: (cs.takeWhile (fun x => !(x = 'm' : Bool)) ++
          (m :: unpackFuel fuel rest))
    else
      if !c.isDigit && !(cs.takeWhile Char.isDigit).isEmpty then
        List.replicate (digitsToNat (cs.takeWhile Char.isDigit)) c ++
          unpackFuel fuel (cs.dropWhile Char.isDigit)
      else c :: unpackFuel fuel cs

/-- `viewer.py` `unpack_line(line)`. -/
def unpack_line (line : List Char) : List Char := unpackFuel line.length line

/-- A plain glyph character: not a decimal digit and not the escape
character.  Every character of the palette `ASCII_CHARS` is plain. -/
def goodChar (c : Char) : Prop := c.isDigit = false ∧ c ≠ escChar

instance (c : Char) : Decidable (goodChar c) :=
  inferInstanceAs (Decidable (c.isDigit = false ∧ c ≠ escChar))

theorem dropWhile_length_le (p : Char → Bool) (l : List Char) :
    (l.dropWhile p).length ≤ l.length := by
  induction l with
  | nil => simp
  | cons c cs ih =>
    rw [List.dropWhile_cons]
    split
    · exact le_trans ih (Nat.le_succ _)
    · exact le_refl _

theorem digitsToNat_append_single (ds : List Char) (c : Char) :
    digitsToNat (ds ++ [c]) = 10 * digitsToNat ds + (c.toNat - 48) := by
  unfold digitsToNat
  rw [List.foldl_append]
  rfl

theorem digitChar_isDigit (d : Nat) (h : d < 10) :
    (Nat.digitChar d).isDigit = true := by
  interval_cases d <;> decide

theorem digitChar_val (d : Nat) (h : d < 10) :
    (Nat.digitChar d).toNat - 48 = d := by
  interval_cases d <;> decide

/-- `toDecimalAux` with enough fuel renders correct decimal digit lists. -/
theorem toDecimalAux_spec (fuel : Nat) :
    ∀ n, n ≤ fuel →
      (∀ c ∈ toDecimalAux fuel n, c.isDigit = true) ∧
      digitsToNat (toDecimalAux fuel n) = n ∧ toDecimalAux fuel n ≠ [] := by
  induction fuel with
  | zero =>
    intro n hn
    interval_cases n
    exact ⟨by decide, by decide, by decide⟩
  | succ fuel ih =>
    intro n hn
    by_cases h10 : n < 10
    · simp only [toDecimalAux, if_pos h10]
      refine ⟨?_, ?_, by simp⟩
      · intro c hc
        simp only [List.mem_singleton] at hc
        subst hc
        exact digitChar_isDigit n h10
      · show digitsToNat ([] ++ [Nat.digitChar n]) = n
        rw [digitsToNat_append_single]
        simp [digitsToNat, digitChar_val n h10]
    · have hge : 10 ≤ n := Nat.le_of_not_lt h10
      have hdiv : n / 10 ≤ fuel := by
        have : n / 10 < n := Nat.div_lt_self (by omega) (by omega)
        omega
      obtain ⟨ihd, ihv, ihne⟩ := ih (n / 10) hdiv
      simp only [toDecimalAux, if_neg h10]
      refine ⟨?_, ?_, by simp⟩
      · intro c hc
        rw [List.mem_append] at hc
        rcases hc with hc | hc
        · exact ihd c hc
        · simp only [List.mem_singleton] at hc
          subst hc
          exact digitChar_isDigit _ (Nat.mod_lt _ (by omega))
      · rw [digitsToNat_append_single, ihv,
          digitChar_val _ (Nat.mod_lt _ (by omega))]
        omega

theorem toDecimal_digits (n : Nat) : ∀ c ∈ toDecimal n, c.isDigit = true :=
  (toDecimalAux_spec n n (le_refl n)).1

theorem toDecimal_val (n : Nat) : digitsToNat (toDecimal n) = n :=
  (toDecimalAux_spec n n (le_refl n)).2.1

theorem toDecimal_ne_nil (n : Nat) : toDecimal n ≠ [] :=
  (toDecimalAux_spec n n (le_refl n)).2.2

theorem unpackFuel_nil (fuel : Nat) : unpackFuel fuel [] = [] := by
  cases fuel <;> rfl

/-- Any fuel of at least the input length gives the same result: every loop
iteration of `unpack_line` consumes at least one character. -/
theorem unpackFuel_congr (f1 : Nat) :
    ∀ (f2 : Nat) (l : List Char), l.length ≤ f1 → l.length ≤ f2 →
      unpackFuel f1 l = unpackFuel f2 l := by
  induction f1 with
  | zero =>
    intro f2 l h1 _
    have : l = [] := List.length_eq_zero.mp (Nat.le_zero.mp h1)
    subst this
    rw [unpackFuel_nil, unpackFuel_nil]
  | succ f1 ih =>
    intro f2 l h1 h2
    match l with
    | [] => rw [unpackFuel_nil, unpackFuel_nil]
    | c :: cs =>
      cases f2 with
      | zero => simp at h2
      | succ g2 =>
        simp only [List.length_cons, Nat.add_le_add_iff_right] at h1 h2
        simp only [unpackFuel]
        by_cases hc : c = escChar
        · rw [if_pos hc, if_pos hc]
          cases hdw : cs.dropWhile (fun x => !(x = 'm' : Bool)) with
          | nil => rfl
          | cons m rest =>
            have hlen : rest.length ≤ cs.length := by
              have hle := dropWhile_length_le (fun x => !(x = 'm' : Bool)) cs
              rw [hdw] at hle
              simp only [List.length_cons] at hle
              omega
            show c :: (_ ++ (m :: unpackFuel f1 rest)) =
              c :: (_ ++ (m :: unpackFuel g2 rest))
            rw [ih g2 rest (le_trans hlen h1) (le_trans hlen h2)]
        · rw [if_neg hc, if_neg hc]
          by_cases hcond :
              (!c.isDigit && !(cs.takeWhile Char.isDigit).isEmpty) = true
          · rw [if_pos hcond, if_pos hcond]
            have hlen : (cs.dropWhile Char.isDigit).length ≤ cs.length :=
              dropWhile_length_le Char.isDigit cs
            rw [ih g2 (cs.dropWhile Char.isDigit)
              (le_trans hlen h1) (le_trans hlen h2)]
          · rw [if_neg hcond, if_neg hcond]
            rw [ih g2 cs h1 h2]

theorem unpack_line_nil : unpack_line [] = [] := rfl

/-- One loop step of `unpack_line` at an escape character whose sequence has
a terminating `'m'`. -/
theorem unpack_line_esc {cs : List Char} {m_ : Char} {rest : List Char}
    (hdw : cs.dropWhile (fun x => !(x = 'm' : Bool)) = m_ :: rest) :
    unpack_line (escChar :: cs) =
      escChar :: (cs.takeWhile (fun x => !(x = 'm' : Bool)) ++
        (m_ :: unpack_line rest)) := by
  have hlen : rest.length ≤ cs.length := by
    have hle := dropWhile_length_le (fun x => !(x = 'm' : Bool)) cs
    rw [hdw] at hle
    simp only [List.length_cons] at hle
    omega
  show unpackFuel (cs.length + 1) (escChar :: cs) = _
  simp only [unpackFuel]
  rw [if_pos trivial, hdw]
  show escChar :: (_ ++ (m_ :: unpackFuel cs.length rest)) = _
  rw [unpackFuel_congr cs.length rest.length rest hlen (le_refl _)]
  rfl

/-- One loop step of `unpack_line` at an escape character with no
terminating `'m'`: the whole remainder is copied as one escape unit. -/
theorem unpack_line_esc_nom {cs : List Char} (hm : 'm' ∉ cs) :
    unpack_line (escChar :: cs) = escChar :: cs := by
  have hall : ∀ x ∈ cs, (fun x => !(x = 'm' : Bool)) x = true := by
    intro x hx
    simp only [Bool.not_eq_true']
    by_contra h
    rw [Bool.not_eq_false, decide_eq_true_iff] at h
    exact hm (h ▸ hx)
  have hdw : cs.dropWhile (fun x => !(x = 'm' : Bool)) = [] :=
    List.dropWhile_eq_nil_iff.mpr hall
  have htw : cs.takeWhile (fun x => !(x = 'm' : Bool)) = cs :=
    List.takeWhile_eq_self_iff.mpr hall
  show unpackFuel (cs.length + 1) (escChar :: cs) = _
  simp only [unpackFuel]
  rw [if_pos trivial, hdw]
  show escChar :: cs.takeWhile (fun x => !(x = 'm' : Bool)) = _
  rw [htw]

/-- One loop step of `unpack_line` at a plain character followed by a digit
run: the regex `([^\d\x1b])(\d+)` fires. -/
theorem unpack_line_digit {c : Char} {cs : List Char}
    (h1 : c ≠ escChar) (h2 : c.isDigit = false)
    (h3 : cs.takeWhile Char.isDigit ≠ []) :
    unpack_line (c :: cs) =
      List.replicate (digitsToNat (cs.takeWhile Char.isDigit)) c ++
        unpack_line (cs.dropWhile Char.isDigit) := by
  have hlen : (cs.dropWhile Char.isDigit).length ≤ cs.length :=
    dropWhile_length_le Char.isDigit cs
  show unpackFuel (cs.length + 1) (c :: cs) = _
  simp only [unpackFuel]
  rw [if_neg h1]
  have hcond : (!c.isDigit && !(cs.takeWhile Char.isDigit).isEmpty) = true := by
    rw [h2]
    simp only [Bool.not_false, Bool.true_and, Bool.not_eq_true',
      List.isEmpty_eq_false_iff_exists_mem]
    rcases List.exists_mem_of_ne_nil _ h3 with ⟨x, hx⟩
    exact ⟨x, hx⟩
  rw [if_pos hcond]
  rw [unpackFuel_congr cs.length (cs.dropWhile Char.isDigit).length
    (cs.dropWhile Char.isDigit) hlen (le_refl _)]
  rfl

/-- One loop step of `unpack_line` at a plain character not followed by a
digit run (or itself a digit): one character is copied. -/
theorem unpack_line_lit {c : Char} {cs : List Char}
    (h1 : c ≠ escChar)
    (h2 : c.isDigit = true ∨ cs.takeWhile Char.isDigit = []) :
    unpack_line (c :: cs) = c :: unpack_line cs := by
  show unpackFuel (cs.length + 1) (c :: cs) = _
  simp only [unpackFuel]
  rw [if_neg h1]
  have hcond : ¬((!c.isDigit && !(cs.takeWhile Char.isDigit).isEmpty) = true) := by
    rcases h2 with h2 | h2
    · simp [h2]
    · simp [h2]
  rw [if_neg hcond]
  rfl

theorem takeWhile_append_eq (p : Char → Bool) (a b : List Char)
    (ha : ∀ x ∈ a, p x = true) (hb : b.takeWhile p = []) :
    (a ++ b).takeWhile p = a := by
  induction a with
  | nil => simpa using hb
  | cons x xs ih =>
    rw [List.cons_append,
      List.takeWhile_cons_of_pos (ha x (List.mem_cons_self x xs))]
    rw [ih (fun y hy => ha y (List.mem_cons_of_mem x hy))]

theorem dropWhile_append_eq (p : Char → Bool) (a b : List Char)
    (ha : ∀ x ∈ a, p x = true) (hb : b.takeWhile p = []) :
    (a ++ b).dropWhile p = b := by
  induction a with
  | nil =>
    rw [List.nil_append]
    cases b with
    | nil => rfl
    | cons y ys =>
      rw [List.takeWhile_cons] at hb
      split at hb
      · exact absurd hb (by simp)
      · exact List.dropWhile_cons_of_neg (by assumption)
  | cons x xs ih =>
    rw [List.cons_append,
      List.dropWhile_cons_of_pos (ha x (List.mem_cons_self x xs))]
    exact ih (fun y hy => ha y (List.mem_cons_of_mem x hy))

/-- Decoding a literal (uncompressed) run of a plain character followed by
text that does not start with a digit. -/
theorem unpack_replicate (c : Char) (hc : goodChar c) (out : List Char)
    (hout : out.takeWhile Char.isDigit = []) :
    ∀ k, unpack_line (List.replicate k c ++ out) =
      List.replicate k c ++ unpack_line out := by
  intro k
  induction k with
  | zero => simp
  | succ k ih =>
    rw [List.replicate_succ, List.cons_append]
    rw [unpack_line_lit hc.2 (Or.inr ?_)]
    · rw [ih]
      rfl
    · cases k with
      | zero => simpa using hout
      | succ k =>
        rw [List.replicate_succ, List.cons_append,
          List.takeWhile_cons_of_neg (by simp [hc.1])]

/-- Decoding one emitted run (compressed or literal) followed by text that
does not start with a digit recovers the run. -/
theorem unpack_emitRun (c : Char) (k t : Nat) (out : List Char)
    (hc : goodChar c) (hk : 1 ≤ k)
    (hout : out.takeWhile Char.isDigit = []) :
    unpack_line (emitRun c k t ++ out) =
      List.replicate k c ++ unpack_line out := by
  unfold emitRun
  by_cases hkt : t ≤ k
  · rw [if_pos hkt, List.cons_append]
    have htw : (toDecimal k ++ out).takeWhile Char.isDigit = toDecimal k :=
      takeWhile_append_eq Char.isDigit (toDecimal k) out
        (toDecimal_digits k) hout
    have hdw : (toDecimal k ++ out).dropWhile Char.isDigit = out :=
      dropWhile_append_eq Char.isDigit (toDecimal k) out
        (toDecimal_digits k) hout
    rw [unpack_line_digit hc.2 hc.1 (by rw [htw]; exact toDecimal_ne_nil k)]
    rw [htw, hdw, toDecimal_val]
  · rw [if_neg hkt]
    exact unpack_replicate c hc out hout k

/-- The output of the compression loop always starts with the character of
the run being tracked. -/
theorem compressAux_head (t : Nat) :
    ∀ (cs : List Char) (prev : Char) (k : Nat), 1 ≤ k →
      ∃ tl, compressAux t prev k cs = prev :: tl := by
  intro cs
  induction cs with
  | nil =>
    intro prev k hk
    show ∃ tl, emitRun prev k t = prev :: tl
    unfold emitRun
    by_cases hkt : t ≤ k
    · exact ⟨toDecimal k, by rw [if_pos hkt]⟩
    · refine ⟨List.replicate (k - 1) prev, ?_⟩
      rw [if_neg hkt]
      cases k with
      | zero => omega
      | succ k => rw [List.replicate_succ]; rfl
  | cons c cs ih =>
    intro prev k hk
    show ∃ tl, (if c = prev then compressAux t prev (k + 1) cs
      else emitRun prev k t ++ compressAux t c 1 cs) = prev :: tl
    by_cases hcp : c = prev
    · rw [if_pos hcp]
      exact ih prev (k + 1) (by omega)
    · rw [if_neg hcp]
      unfold emitRun
      by_cases hkt : t ≤ k
      · exact ⟨toDecimal k ++ compressAux t c 1 cs, by rw [if_pos hkt]; rfl⟩
      · refine ⟨List.replicate (k - 1) prev ++ compressAux t c 1 cs, ?_⟩
        rw [if_neg hkt]
        cases k with
        | zero => omega
        | succ k => rw [List.replicate_succ]; rfl

/-- Round trip of the compression loop on plain rows: decoding the encoding
of a pending run of `k` copies of `prev` followed by the unscanned rest
recovers exactly that text. -/
theorem unpack_compressAux (t : Nat) (ht : 1 ≤ t) :
    ∀ (cs : List Char) (prev : Char) (k : Nat), goodChar prev →
      (∀ x ∈ cs, goodChar x) → 1 ≤ k →
      unpack_line (compressAux t prev k cs) = List.replicate k prev ++ cs := by
  intro cs
  induction cs with
  | nil =>
    intro prev k hprev _ hk
    show unpack_line (emitRun prev k t) = _
    rw [show emitRun prev k t = emitRun prev k t ++ [] from (List.append_nil _).symm]
    rw [unpack_emitRun prev k t [] hprev hk (by rfl)]
    rw [unpack_line_nil]
  | cons c cs ih =>
    intro prev k hprev hgood hk
    show unpack_line (if c = prev then compressAux t prev (k + 1) cs
      else emitRun prev k t ++ compressAux t c 1 cs) = _
    have hgc : goodChar c := hgood c (List.mem_cons_self c cs)
    have hgcs : ∀ x ∈ cs, goodChar x :=
      fun y hy => hgood y (List.mem_cons_of_mem c hy)
    by_cases hcp : c = prev
    · rw [if_pos hcp]
      rw [ih prev (k + 1) hprev hgcs (by omega)]
      subst hcp
      rw [List.replicate_succ', List.append_assoc]
      rfl
    · rw [if_neg hcp]
      obtain ⟨tl, htl⟩ := compressAux_head t cs c 1 (le_refl 1)
      have hout : (compressAux t c 1 cs).takeWhile Char.isDigit = [] := by
        rw [htl, List.takeWhile_cons_of_neg (by simp [hgc.1])]
      rw [unpack_emitRun prev k t _ hprev hk hout]
      rw [ih c 1 hgc hgcs (le_refl 1)]
      rfl

/-- C1 (counterexample to the claim as stated): `compress_line` is a plain
character-level run-length encoder with no escape handling, so it does split
escape sequences into run counts: the single color glyph
`"\x1b[38;2;255;0;0m@\x1b[0m"` at threshold 2 is encoded with the digit run
`55` replaced by `52` inside the escape sequence, and `unpack_line` (which
copies escape sequences through unchanged) does not recover the row. -/
theorem claim1_counterexample :
    (compress_line "\x1b[38;2;255;0;0m@\x1b[0m".data true 2).map unpack_line ≠
      some "\x1b[38;2;255;0;0m@\x1b[0m".data := by
  decide

/-- C1 (amended): the line-codec round trip holds for every nonempty row of
plain glyph characters (no digits, no escape character) and every threshold
`t ≥ 1`: `unpack_line (compress_line R true t) = R`.  The encoder is not
escape-aware, so the claim's escape-wrapped case is excluded
(`claim1_counterexample`). -/
theorem claim1_roundtrip_plain (line : List Char) (t : Nat)
    (hne : line ≠ []) (hgood : ∀ c ∈ line, goodChar c) (ht : 1 ≤ t) :
    (compress_line line true t).map unpack_line = some line := by
  match line, hne with
  | c :: cs, _ =>
    have hstep : compress_line (c :: cs) true t =
        some (compressAux t c 1 cs) := by
      unfold compress_line
      rw [if_neg (by simp)]
    rw [hstep, Option.map_some']
    rw [unpack_compressAux t ht cs c 1 (hgood c (List.mem_cons_self c cs))
      (fun y hy => hgood y (List.mem_cons_of_mem c hy)) (le_refl 1)]
    rfl

/-- C1 witness: the round trip instantiated on the concrete plain row
`"AAAAABBBCC"` at threshold 3. -/
theorem claim1_roundtrip_plain_witness :
    ("AAAAABBBCC".data ≠ [] ∧ (∀ c ∈ "AAAAABBBCC".data, goodChar c) ∧ 1 ≤ 3) ∧
      (compress_line "AAAAABBBCC".data true 3).map unpack_line =
        some "AAAAABBBCC".data :=
  ⟨⟨by decide, by decide, by decide⟩,
    claim1_roundtrip_plain "AAAAABBBCC".data 3 (by decide) (by decide)
      (by decide)⟩

/-- C6: the documented run-length scenario: encoding `"AAAAABBBCC"` with
compression enabled and threshold 3 yields `"A5B3CC"` (runs of length at
least the threshold become unit plus decimal count, shorter runs stay
literal), and decoding `"A5B3CC"` yields `"AAAAABBBCC"` again. -/
theorem claim6_scenario :
    compress_line "AAAAABBBCC".data true 3 = some "A5B3CC".data ∧
      unpack_line "A5B3CC".data = "AAAAABBBCC".data := by
  constructor
  · decide
  · decide

/-- C9: with compression enabled `compress_line` reads `line[0]`
unconditionally and raises an `IndexError` on the empty row (modelled as
`none`); on every nonempty row it returns normally, and with compression
disabled it returns any input, the empty row included, unchanged. -/
theorem claim9_empty_row (line : List Char) (t : Nat) :
    compress_line [] true t = none ∧
      (line ≠ [] → (compress_line line true t).isSome = true) ∧
      compress_line line false t = some line := by
  refine ⟨by unfold compress_line; rw [if_neg (by simp)], ?_, rfl⟩
  intro hne
  match line, hne with
  | c :: cs, _ =>
    unfold compress_line
    rw [if_neg (by simp)]
    rfl

/-- C9 witness: instantiated on the row `"AB"` at threshold 4. -/
theorem claim9_empty_row_witness :
    "AB".data ≠ [] ∧
      (compress_line [] true 4 = none ∧
        (compress_line "AB".data true 4).isSome = true ∧
        compress_line "AB".data false 4 = some "AB".data) := by
  obtain ⟨h1, h2, h3⟩ := claim9_empty_row "AB".data 4
  exact ⟨by decide, h1, h2 (by decide), h3⟩

/-- C10: the line decoder is total.  Formally: the fueled scanning loop is
insensitive to any fuel of at least the input length — each iteration
consumes at least one character — so `unpack_line` terminates and returns a
value on every input; and on an escape introducer with no `'m'` terminator
the whole remainder is consumed as one escape unit and copied through. -/
theorem claim10_decoder_total (l cs : List Char) (fuel : Nat) :
    (l.length ≤ fuel → unpackFuel fuel l = unpack_line l) ∧
      ('m' ∉ cs → unpack_line (escChar :: cs) = escChar :: cs) := by
  constructor
  · intro hf
    exact unpackFuel_congr fuel l.length l hf (le_refl _)
  · exact unpack_line_esc_nom

/-- C10 witness: instantiated on the truncated escape `"\x1b[38"`. -/
theorem claim10_decoder_total_witness :
    ("\x1b[38".data.length ≤ 7 ∧ 'm' ∉ "[38".data) ∧
      unpackFuel 7 "\x1b[38".data = unpack_line "\x1b[38".data ∧
      unpack_line ('\x1b' :: "[38".data) = '\x1b' :: "[38".data := by
  obtain ⟨h1, h2⟩ := claim10_decoder_total "\x1b[38".data "[38".data 7
  exact ⟨⟨by decide, by decide⟩, h1 (by decide), h2 (by decide)⟩

/-- Python `'\n'.join(rows)`. -/
def joinLines (rows : List (List Char)) : List Char :=
  List.intercalate ['\n'] rows

/-- Python `str.splitlines` restricted to the `'\n'` terminator (the only
line terminator occurring in this program's payload text): split on `'\n'`
and drop a trailing empty piece. -/
def splitlinesNL (s : List Char) : List (List Char) :=
  let ps := s.splitOn '\n'
  if ps.getLast? = some [] then ps.dropLast else ps

/-- Python `lines[j] if j < len(lines) else ''`: row access defaulting to
the empty row. -/
def rowD (l : List (List Char)) (j : Nat) : List Char := l.getD j []

/-- `converter.py` `diff_frames`: the per-row delta of `curr` against
`prev` — the sentinel `'='` where the rows agree, the current row
verbatim where they differ. -/
def diffRows (prev curr : List (List Char)) : List (List Char) :=
  (List.range (max prev.length curr.length)).map
    (fun j => if rowD prev j = rowD curr j then ['='] else rowD curr j)

/-- `converter.py` `diff_frames`: the loop over frames `1..`, each frame
diffed against its predecessor and newline-joined. -/
def diffRest (prev : List (List Char)) :
    List (List (List Char)) → List (List Char)
  | [] => []
  | curr :: rest => joinLines (diffRows prev curr) :: diffRest curr rest

/-- `converter.py` `diff_frames(frames)`: frame 0 is stored in full; it is
read as `frames[0]`, so the empty input raises (modelled as `none`). -/
def diff_frames (frames : List (List (List Char))) :
    Option (List (List Char)) :=
  match frames with
  | [] => none
  | f0 :: rest => some (joinLines f0 :: diffRest f0 rest)

/-- `viewer.py` `apply_diff`: reconstruction of one frame from the
reconstructed previous frame and the split diff lines: `'='` is replaced by
the previous frame's row, anything else is kept. -/
def undiffRows (prev dl : List (List Char)) : List (List Char) :=
  (List.range (max prev.length dl.length)).map
    (fun j => if rowD dl j = ['='] then rowD prev j else rowD dl j)

/-- `viewer.py` `apply_diff`: the loop over stored diff frames, threading
the reconstructed previous frame. -/
def applyRest (prev : List (List Char)) :
    List (List Char) → List (List (List Char))
  | [] => []
  | d :: ds =>
    undiffRows prev (splitlinesNL d) ::
      applyRest (undiffRows prev (splitlinesNL d)) ds

/-- `viewer.py` `apply_diff`: `max(len(frame) for frame in full_frames)`
(only ever taken of a nonempty list there). -/
def maxHeight (fs : List (List (List Char))) : Nat :=
  (fs.map List.length).foldr max 0

/-- `viewer.py` `apply_diff`: `while len(frame) < h: frame.insert(0, '')` —
pad a frame to height `h` by prepending empty rows. -/
def padTo (h : Nat) (f : List (List Char)) : List (List Char) :=
  List.replicate (h - f.length) [] ++ f

/-- `viewer.py` `apply_diff(frames)`: frame 0 is `frames[0]`, so the empty
input raises (modelled as `none`); all reconstructed frames are padded to
the maximum height and newline-joined. -/
def apply_diff (frames : List (List Char)) : Option (List (List Char)) :=
  match frames with
  | [] => none
  | f0 :: rest =>
    let full := splitlinesNL f0 :: applyRest (splitlinesNL f0) rest
    some (full.map (fun f => joinLines (padTo (maxHeight full) f)))

/-- A frame of height `h` whose rows are nonempty and newline-free (as all
rows of glyph text produced by the converter are). -/
def goodFrame (h : Nat) (f : List (List Char)) : Prop :=
  f.length = h ∧ ∀ r ∈ f, r ≠ [] ∧ '\n' ∉ r

/-- The condition the diff sentinel needs: a row of the later frame that is
literally `"="` must equal the matching row of the earlier frame (otherwise
the decoder misreads it as "unchanged"). -/
def sentinelOK (p c : List (List Char)) : Prop :=
  ∀ j < c.length, rowD c j = ['='] → rowD p j = rowD c j

instance (p c : List (List Char)) : Decidable (sentinelOK p c) :=
  inferInstanceAs
    (Decidable (∀ j < c.length, rowD c j = ['='] → rowD p j = rowD c j))

instance (h : Nat) (f : List (List Char)) : Decidable (goodFrame h f) :=
  inferInstanceAs (Decidable (f.length = h ∧ ∀ r ∈ f, r ≠ [] ∧ '\n' ∉ r))

theorem splitlinesNL_joinLines (rows : List (List Char)) (hne : rows ≠ [])
    (hrows : ∀ r ∈ rows, r ≠ [] ∧ '\n' ∉ r) :
    splitlinesNL (joinLines rows) = rows := by
  unfold splitlinesNL joinLines
  have hsplit : (List.intercalate ['\n'] rows).splitOn '\n' = rows :=
    List.splitOn_intercalate rows '\n' (fun l hl => (hrows l hl).2) hne
  rw [hsplit]
  rw [if_neg ?_]
  intro hlast
  have hmem : ([] : List Char) ∈ rows := by
    rcases List.getLast?_eq_some_iff.mp hlast with ⟨l2, hl2⟩
    rw [hl2] at hne ⊢
    exact List.mem_concat_self l2 []
  exact (hrows [] hmem).1 rfl

theorem diffRows_length (prev curr : List (List Char)) :
    (diffRows prev curr).length = max prev.length curr.length := by
  unfold diffRows
  rw [List.length_map, List.length_range]

theorem rowD_diffRows (prev curr : List (List Char)) (j : Nat)
    (hj : j < max prev.length curr.length) :
    rowD (diffRows prev curr) j =
      if rowD prev j = rowD curr j then ['='] else rowD curr j := by
  show (diffRows prev curr).getD j [] = _
  rw [List.getD_eq_getElem _ _ (by rw [diffRows_length]; exact hj)]
  unfold diffRows
  rw [List.getElem_map, List.getElem_range]

/-- Reconstructing from the per-row delta recovers the current frame, as
long as no differing row is literally the sentinel `"="`. -/
theorem undiffRows_diffRows (h : Nat) (prev curr : List (List Char))
    (hp : prev.length = h) (hc : curr.length = h)
    (hsent : sentinelOK prev curr) :
    undiffRows prev (diffRows prev curr) = curr := by
  have hdl : (diffRows prev curr).length = h := by
    rw [diffRows_length, hp, hc, Nat.max_self]
  apply List.ext_getElem
  · unfold undiffRows
    rw [List.length_map, List.length_range, hdl, hp, Nat.max_self, hc]
  · intro j hj1 hj2
    unfold undiffRows
    have hjh : j < h := by
      rw [hc] at hj2
      exact hj2
    rw [List.getElem_map, List.getElem_range]
    have hd : rowD (diffRows prev curr) j =
        if rowD prev j = rowD curr j then ['='] else rowD curr j :=
      rowD_diffRows prev curr j (by rw [hp, hc, Nat.max_self]; exact hjh)
    have hcurr : rowD curr j = curr[j] :=
      List.getD_eq_getElem curr [] (by rw [hc]; exact hjh)
    by_cases heq : rowD prev j = rowD curr j
    · rw [hd, if_pos heq, if_pos rfl, heq, hcurr]
    · rw [hd, if_neg heq]
      have hne : rowD curr j ≠ ['='] := by
        intro hcontra
        exact heq (hsent j (by rw [hc]; exact hjh) hcontra)
      rw [if_neg hne, hcurr]

theorem diffRows_rows_good (h : Nat) (hh : 1 ≤ h)
    (prev curr : List (List Char)) (hp : prev.length = h)
    (hc : curr.length = h) (hcr : ∀ r ∈ curr, r ≠ [] ∧ '\n' ∉ r) :
    diffRows prev curr ≠ [] ∧
      ∀ r ∈ diffRows prev curr, r ≠ [] ∧ '\n' ∉ r := by
  constructor
  · intro hcontra
    have := diffRows_length prev curr
    rw [hcontra, hp, hc, Nat.max_self] at this
    simp only [List.length_nil] at this
    omega
  · intro r hr
    unfold diffRows at hr
    rw [List.mem_map] at hr
    obtain ⟨j, hj, hrj⟩ := hr
    rw [List.mem_range, hp, hc, Nat.max_self] at hj
    by_cases heq : rowD prev j = rowD curr j
    · rw [if_pos heq] at hrj
      subst hrj
      exact ⟨by simp, by decide⟩
    · rw [if_neg heq] at hrj
      subst hrj
      have : rowD curr j = curr[j] :=
        List.getD_eq_getElem curr [] (by rw [hc]; exact hj)
      rw [this]
      exact hcr _ (List.getElem_mem _)

/-- Replaying the diffs of a frame sequence reconstructs it exactly. -/
theorem applyRest_diffRest (h : Nat) (hh : 1 ≤ h) :
    ∀ (rest : List (List (List Char))) (prev : List (List Char)),
      goodFrame h prev → (∀ f ∈ rest, goodFrame h f) →
      List.Chain' sentinelOK (prev :: rest) →
      applyRest prev (diffRest prev rest) = rest := by
  intro rest
  induction rest with
  | nil => intro prev _ _ _; rfl
  | cons curr rest ih =>
    intro prev hprev hgood hchain
    have hcurr : goodFrame h curr := hgood curr (List.mem_cons_self curr rest)
    have hsent : sentinelOK prev curr :=
      (List.chain'_cons.mp hchain).1
    show undiffRows prev (splitlinesNL (joinLines (diffRows prev curr))) ::
      applyRest (undiffRows prev (splitlinesNL (joinLines (diffRows prev curr))))
        (diffRest curr rest) = curr :: rest
    obtain ⟨hdne, hdrows⟩ :=
      diffRows_rows_good h hh prev curr hprev.1 hcurr.1 hcurr.2
    rw [splitlinesNL_joinLines (diffRows prev curr) hdne hdrows]
    rw [undiffRows_diffRows h prev curr hprev.1 hcurr.1 hsent]
    rw [ih curr hcurr (fun f hf => hgood f (List.mem_cons_of_mem curr hf))
      (List.chain'_cons.mp hchain).2]

theorem maxHeight_const (h : Nat) :
    ∀ fs : List (List (List Char)), fs ≠ [] → (∀ f ∈ fs, f.length = h) →
      maxHeight fs = h := by
  intro fs
  induction fs with
  | nil => intro hne _; exact absurd rfl hne
  | cons f fs ih =>
    intro _ hlen
    show max f.length (maxHeight fs) = h
    rw [hlen f (List.mem_cons_self f fs)]
    cases fs with
    | nil => show max h 0 = h; omega
    | cons g gs =>
      rw [ih (by simp) (fun x hx => hlen x (List.mem_cons_of_mem f hx))]
      omega

theorem padTo_self (h : Nat) (f : List (List Char)) (hf : f.length = h) :
    padTo h f = f := by
  unfold padTo
  rw [hf, Nat.sub_self]
  rfl

/-- C2 (counterexample to the claim as stated): a literal row that happens
to be the one-character string `"="` while differing from the previous
frame's row is emitted verbatim by `diff_frames` and then misread by
`apply_diff` as the "unchanged" sentinel.  With the two one-row frames
`["A"]` and `["="]` (already of common height 1) the decoder returns
`["A"], ["A"]` instead of the original sequence. -/
theorem claim2_counterexample :
    (diff_frames [[['A']], [['=']]]).bind apply_diff ≠
      some ([[['A']], [['=']]].map joinLines) := by
  decide

/-- C2 (amended): the diff round trip `apply_diff (diff_frames F) = F` (with
frames rendered as newline-joined strings) holds for every nonempty frame
sequence `F` whose frames all have the same height `h ≥ 1` and consist of
nonempty newline-free rows, provided no row that differs from the matching
row of the previous frame is literally the sentinel string `"="`.  The
encoder emits `'='` exactly for a row equal to the same row of the previous
frame, and the decoder replaces `'='` by the previous frame's row; the final
padding (prepending empty rows up to the maximum height) is a no-op because
all reconstructed frames already share height `h`. -/
theorem claim2_diff_roundtrip (F : List (List (List Char))) (h : Nat)
    (hne : F ≠ []) (hh : 1 ≤ h) (hgood : ∀ f ∈ F, goodFrame h f)
    (hchain : List.Chain' sentinelOK F) :
    (diff_frames F).bind apply_diff = some (F.map joinLines) := by
  match F, hne with
  | f0 :: rest, _ =>
    have hf0 : goodFrame h f0 := hgood f0 (List.mem_cons_self f0 rest)
    show apply_diff (joinLines f0 :: diffRest f0 rest) = _
    have hs0 : splitlinesNL (joinLines f0) = f0 :=
      splitlinesNL_joinLines f0
        (by intro hc; rw [hc] at hf0; simp [goodFrame] at hf0; omega) hf0.2
    show some ((splitlinesNL (joinLines f0) ::
        applyRest (splitlinesNL (joinLines f0)) (diffRest f0 rest)).map
        (fun f => joinLines (padTo (maxHeight (splitlinesNL (joinLines f0) ::
          applyRest (splitlinesNL (joinLines f0)) (diffRest f0 rest))) f))) = _
    rw [hs0]
    rw [applyRest_diffRest h hh rest f0 hf0
      (fun f hf => hgood f (List.mem_cons_of_mem f0 hf)) hchain]
    have hmax : maxHeight (f0 :: rest) = h :=
      maxHeight_const h (f0 :: rest) (by simp)
        (fun f hf => (hgood f hf).1)
    rw [hmax]
    congr 1
    apply List.map_congr_left
    intro f hf
    rw [padTo_self h f (hgood f hf).1]

/-- C2 witness: the round trip instantiated on a concrete two-frame
animation of height 2 with no sentinel-shaped rows. -/
theorem claim2_diff_roundtrip_witness :
    (([[['A'], ['B']], [['A'], ['C']]] : List (List (List Char))) ≠ [] ∧
        1 ≤ 2 ∧
        (∀ f ∈ ([[['A'], ['B']], [['A'], ['C']]] :
          List (List (List Char))), goodFrame 2 f) ∧
        List.Chain' sentinelOK [[['A'], ['B']], [['A'], ['C']]]) ∧
      (diff_frames [[['A'], ['B']], [['A'], ['C']]]).bind apply_diff =
        some ([[['A'], ['B']], [['A'], ['C']]].map joinLines) :=
  ⟨⟨by decide, by decide, by decide,
      List.chain'_pair.mpr (by decide)⟩,
    claim2_diff_roundtrip [[['A'], ['B']], [['A'], ['C']]] 2
      (by decide) (by decide) (by decide)
      (List.chain'_pair.mpr (by decide))⟩

/-- The metadata record written by `converter.py` (`process_static_image` /
`process_gif_image`): fields `compressed`, `diff`, `color` and, for
animations only, `delays`. -/
structure Metadata where
  compressed : Bool
  diff : Bool
  color : Bool
  delays : Option (List Nat)
deriving DecidableEq

/-- JSON rendering of a Python bool, as `json.dumps` emits it. -/
def boolStr : Bool → List Char
  | true => "true".data
  | false => "false".data

/-- JSON rendering of the body of a list of integers, as `json.dumps` emits
it (items separated by `", "`). -/
def serItems : List Nat → List Char
  | [] => []
  | [n] => toDecimal n
  | n :: ns => toDecimal n ++ ", ".data ++ serItems ns

def openTok : List Char := "\x7b\"compressed\": ".data

def diffTok : List Char := ", \"diff\": ".data

def colorTok : List Char := ", \"color\": ".data

def delaysTok : List Char := ", \"delays\": [".data

def closeTok : List Char := "\x7d".data

def endListTok : List Char := "]\x7d".data

def metaTail : Option (List Nat) → List Char
  | none => closeTok
  | some ds => delaysTok ++ serItems ds ++ endListTok

/-- `json.dumps(metadata)` for the exact dicts this program builds (keys in
insertion order `compressed`, `diff`, `color`, `delays`; default `json`
separators `", "` and `": "`). -/
def serializeMeta (m : Metadata) : List Char :=
  openTok ++ boolStr m.compressed ++ diffTok ++ boolStr m.diff ++
    colorTok ++ boolStr m.color ++ metaTail m.delays

/-- Consume an expected literal token. -/
def expects (pat s : List Char) : Option (List Char) :=
  if pat.isPrefixOf s then some (s.drop pat.length) else none

/-- Parse a JSON bool token. -/
def parseBool (s : List Char) : Option (Bool × List Char) :=
  if "true".data.isPrefixOf s then some (true, s.drop 4)
  else if "false".data.isPrefixOf s then some (false, s.drop 5)
  else none

/-- Parse a decimal integer token. -/
def parseNat (s : List Char) : Option (Nat × List Char) :=
  let ds := s.takeWhile Char.isDigit
  if ds.isEmpty then none
  else some (digitsToNat ds, s.dropWhile Char.isDigit)

/-- Parse the `", "`-separated items of a JSON integer list (fuel bounds the
number of items; any fuel of at least the item count suffices). -/
def parseItems : Nat → List Char → Option (List Nat × List Char)
  | 0, _ => none
  | fuel + 1, s =>
    match parseNat s with
    | none => none
    | some (n, r) =>
      if ", ".data.isPrefixOf r then
        match parseItems fuel (r.drop 2) with
        | none => none
        | some (ns, r2) => some (n :: ns, r2)
      else some ([n], r)

/-- `json.loads` restricted to the metadata record grammar that
`serializeMeta` (i.e. this program's `json.dumps` calls) emits; any other
input is rejected (`none`), as `json.loads` raises on text that is not a
valid serialization of the expected record. -/
def parseMeta (s : List Char) : Option Metadata := do
  let s1 ← expects openTok s
  let (c, s2) ← parseBool s1
  let s3 ← expects diffTok s2
  let (d, s4) ← parseBool s3
  let s5 ← expects colorTok s4
  let (col, s6) ← parseBool s5
  if s6 = closeTok then
    pure ⟨c, d, col, none⟩
  else do
    let s7 ← expects delaysTok s6
    if s7 = endListTok then
      pure ⟨c, d, col, some []⟩
    else do
      let (ds, s8) ← parseItems s7.length s7
      if s8 = endListTok then pure ⟨c, d, col, some ds⟩ else none

/-- `converter.py` `save_ascii_file`: the container bytes are
`compress(json.dumps(metadata) + "\n" + content)`.  The deflate layer
(`zlib`) is an external lossless pass, modelled by an arbitrary
compression function `comp`. -/
def save_ascii_file (comp : List Char → List Char) (metadata : Metadata)
    (content : List Char) : List Char :=
  comp (serializeMeta metadata ++ '\n' :: content)

/-- `viewer.py` `decompress_ascii`: decompress, then
`meta_end = decompressed.find(b'\n')`.  Python `find` returns `-1` when no
newline exists, in which case `decompressed[:meta_end]` silently drops only
the last byte and `decompressed[meta_end+1:]` is the whole input — that
branch is modelled faithfully by the `none` arm.  A `json.loads` failure
raises, modelled by `none` overall. -/
def decompress_ascii (decomp : List Char → List Char) (file : List Char) :
    Option (Metadata × List Char) :=
  match (decomp file).findIdx? (fun c => (c = '\n' : Bool)) with
  | some k =>
    (parseMeta ((decomp file).take k)).map
      (fun m => (m, (decomp file).drop (k + 1)))
  | none =>
    (parseMeta (decomp file).dropLast).map (fun m => (m, decomp file))

theorem expects_append (pat rest : List Char) :
    expects pat (pat ++ rest) = some rest := by
  unfold expects
  rw [if_pos (List.isPrefixOf_iff_prefix.mpr (List.prefix_append pat rest))]
  rw [List.drop_left]

theorem not_isPrefixOf_of_head_ne {a b : Char} {as bs : List Char}
    (h : a ≠ b) : ((a :: as).isPrefixOf (b :: bs)) = false := by
  by_contra hc
  rw [Bool.not_eq_false, List.isPrefixOf_iff_prefix] at hc
  rcases hc with ⟨t, ht⟩
  rw [List.cons_append] at ht
  injection ht with h1 _
  exact h h1

theorem parseBool_boolStr (b : Bool) (rest : List Char) :
    parseBool (boolStr b ++ rest) = some (b, rest) := by
  cases b
  · show parseBool ("false".data ++ rest) = some (false, rest)
    unfold parseBool
    have h1 : "true".data = 't' :: "rue".data := rfl
    have h2 : "false".data ++ rest = 'f' :: ("alse".data ++ rest) := rfl
    rw [h1, h2, not_isPrefixOf_of_head_ne (by decide)]
    rw [if_neg (show ¬(false = true) by decide)]
    rw [← h2]
    rw [if_pos (List.isPrefixOf_iff_prefix.mpr
      (List.prefix_append "false".data rest))]
    have hd : ("false".data ++ rest).drop 5 = rest := by
      rw [show (5 : Nat) = ("false".data).length from rfl, List.drop_left]
    rw [hd]
  · show parseBool ("true".data ++ rest) = some (true, rest)
    unfold parseBool
    rw [if_pos (List.isPrefixOf_iff_prefix.mpr
      (List.prefix_append "true".data rest))]
    have hd : ("true".data ++ rest).drop 4 = rest := by
      rw [show (4 : Nat) = ("true".data).length from rfl, List.drop_left]
    rw [hd]

theorem parseNat_toDecimal (n : Nat) (rest : List Char)
    (hrest : rest.takeWhile Char.isDigit = []) :
    parseNat (toDecimal n ++ rest) = some (n, rest) := by
  unfold parseNat
  have htw : (toDecimal n ++ rest).takeWhile Char.isDigit = toDecimal n :=
    takeWhile_append_eq Char.isDigit (toDecimal n) rest
      (toDecimal_digits n) hrest
  have hdw : (toDecimal n ++ rest).dropWhile Char.isDigit = rest :=
    dropWhile_append_eq Char.isDigit (toDecimal n) rest
      (toDecimal_digits n) hrest
  rw [htw, hdw]
  rw [if_neg (by simp [List.isEmpty_eq_true, toDecimal_ne_nil n])]
  rw [toDecimal_val]

theorem serItems_length_ge (ds : List Nat) : ds.length ≤ (serItems ds).length := by
  induction ds with
  | nil => simp [serItems]
  | cons d ds ih =>
    cases ds with
    | nil =>
      show 1 ≤ (toDecimal d).length
      have := toDecimal_ne_nil d
      cases hd : toDecimal d with
      | nil => exact absurd hd this
      | cons x xs => simp
    | cons e es =>
      show (d :: e :: es).length ≤
        (toDecimal d ++ ", ".data ++ serItems (e :: es)).length
      have hne := toDecimal_ne_nil d
      have hpos : 1 ≤ (toDecimal d).length := by
        cases hd : toDecimal d with
        | nil => exact absurd hd hne
        | cons x xs => simp
      simp only [List.length_cons, List.length_append]
      simp only [List.length_cons] at ih
      omega

theorem parseItems_serItems (ds : List Nat) :
    ∀ (fuel : Nat) (rest : List Char), ds ≠ [] → ds.length ≤ fuel →
      rest.takeWhile Char.isDigit = [] →
      (", ".data.isPrefixOf rest) = false →
      parseItems fuel (serItems ds ++ rest) = some (ds, rest) := by
  induction ds with
  | nil => intro _ _ hne _ _ _; exact absurd rfl hne
  | cons d ds ih =>
    intro fuel rest _ hfuel hrest hnosep
    cases fuel with
    | zero => simp at hfuel
    | succ fuel =>
      cases ds with
      | nil =>
        show parseItems (fuel + 1) (toDecimal d ++ rest) = some ([d], rest)
        unfold parseItems
        simp only [parseNat_toDecimal d rest hrest]
        rw [hnosep]
        simp only [Bool.false_eq_true, if_false]
      | cons e es =>
        show parseItems (fuel + 1)
          ((toDecimal d ++ ", ".data ++ serItems (e :: es)) ++ rest) =
          some (d :: e :: es, rest)
        have hassoc :
            (toDecimal d ++ ", ".data ++ serItems (e :: es)) ++ rest =
              toDecimal d ++ (", ".data ++ (serItems (e :: es) ++ rest)) := by
          simp [List.append_assoc]
        rw [hassoc]
        unfold parseItems
        have hcomma : (", ".data ++ (serItems (e :: es) ++ rest)).takeWhile
            Char.isDigit = [] := by
          rw [show ", ".data ++ (serItems (e :: es) ++ rest) =
            ',' :: (' ' :: (serItems (e :: es) ++ rest)) from rfl]
          rw [List.takeWhile_cons_of_neg (by decide)]
        simp only [parseNat_toDecimal d
          (", ".data ++ (serItems (e :: es) ++ rest)) hcomma]
        rw [if_pos (List.isPrefixOf_iff_prefix.mpr
          (List.prefix_append ", ".data _))]
        have hdrop : (", ".data ++ (serItems (e :: es) ++ rest)).drop 2 =
            serItems (e :: es) ++ rest := by
          rw [show (2 : Nat) = (", ".data).length from rfl, List.drop_left]
        rw [hdrop]
        rw [ih fuel rest (by simp) (by simp at hfuel ⊢; omega) hrest hnosep]

theorem serItems_ne_nil (d : Nat) (ds : List Nat) :
    serItems (d :: ds) ≠ [] := by
  cases ds with
  | nil => exact toDecimal_ne_nil d
  | cons e es =>
    show toDecimal d ++ ", ".data ++ serItems (e :: es) ≠ []
    simp [toDecimal_ne_nil d]

/-- Parsing inverts serialization on every metadata record this program can
write. -/
theorem parseMeta_serializeMeta (m : Metadata) :
    parseMeta (serializeMeta m) = some m := by
  obtain ⟨c, d, col, delays⟩ := m
  show parseMeta (openTok ++ boolStr c ++ diffTok ++ boolStr d ++
    colorTok ++ boolStr col ++ metaTail delays) = _
  have hshape : openTok ++ boolStr c ++ diffTok ++ boolStr d ++
      colorTok ++ boolStr col ++ metaTail delays =
      openTok ++ (boolStr c ++ (diffTok ++ (boolStr d ++
        (colorTok ++ (boolStr col ++ metaTail delays))))) := by
    simp [List.append_assoc]
  rw [hshape]
  unfold parseMeta
  rw [expects_append]
  simp only [Option.bind_eq_bind, Option.some_bind]
  rw [parseBool_boolStr]
  simp only [Option.some_bind]
  rw [expects_append]
  simp only [Option.some_bind]
  rw [parseBool_boolStr]
  simp only [Option.some_bind]
  rw [expects_append]
  simp only [Option.some_bind]
  rw [parseBool_boolStr]
  simp only [Option.some_bind]
  cases delays with
  | none =>
    rw [if_pos (show metaTail none = closeTok from rfl)]
    rfl
  | some ds =>
    rw [if_neg ?_]
    · show (do
        let s7 ← expects delaysTok (delaysTok ++ (serItems ds ++ endListTok))
        if s7 = endListTok then
          pure ⟨c, d, col, some []⟩
        else do
          let (ds2, s8) ← parseItems s7.length s7
          if s8 = endListTok then pure ⟨c, d, col, some ds2⟩ else none :
          Option Metadata) = some ⟨c, d, col, some ds⟩
      rw [expects_append]
      simp only [Option.bind_eq_bind, Option.some_bind]
      cases ds with
      | nil =>
        rw [if_pos (show serItems [] ++ endListTok = endListTok from rfl)]
        rfl
      | cons e es =>
        rw [if_neg ?_]
        · rw [parseItems_serItems (e :: es) (serItems (e :: es) ++ endListTok).length
            endListTok (by simp) ?_ (by decide) (by decide)]
          · simp only [Option.some_bind]
            simp
          · have h1 := serItems_length_ge (e :: es)
            simp only [List.length_append]
            omega
        · intro hcontra
          have hlen := congrArg List.length hcontra
          simp only [List.length_append] at hlen
          have : serItems (e :: es) = [] := List.length_eq_zero.mp (by omega)
          exact serItems_ne_nil e es this
    · show ¬(delaysTok ++ (serItems ds ++ endListTok) = closeTok)
      intro hcontra
      have hlen := congrArg List.length hcontra
      simp only [List.length_append] at hlen
      have e1 : delaysTok.length = 13 := by decide
      have e2 : closeTok.length = 1 := by decide
      have e3 : endListTok.length = 2 := by decide
      omega

theorem toDecimal_no_newline (n : Nat) :
    ∀ c ∈ toDecimal n, (c = '\n' : Bool) = false := by
  intro c hc
  have hd := toDecimal_digits n c hc
  rw [decide_eq_false]
  intro hcontra
  subst hcontra
  exact absurd hd (by decide)

theorem serItems_no_newline (ds : List Nat) :
    ∀ c ∈ serItems ds, (c = '\n' : Bool) = false := by
  induction ds with
  | nil => intro c hc; simp [serItems] at hc
  | cons d ds ih =>
    intro c hc
    cases ds with
    | nil => exact toDecimal_no_newline d c hc
    | cons e es =>
      have hshape : serItems (d :: e :: es) =
          toDecimal d ++ ", ".data ++ serItems (e :: es) := rfl
      rw [hshape, List.append_assoc, List.mem_append] at hc
      rcases hc with hc | hc
      · exact toDecimal_no_newline d c hc
      · rw [List.mem_append] at hc
        rcases hc with hc | hc
        · revert hc
          revert c
          decide
        · exact ih c hc

theorem boolStr_no_newline (b : Bool) :
    ∀ c ∈ boolStr b, (c = '\n' : Bool) = false := by
  cases b <;> decide

theorem metaTail_no_newline (o : Option (List Nat)) :
    ∀ c ∈ metaTail o, (c = '\n' : Bool) = false := by
  cases o with
  | none => decide
  | some ds =>
    intro c hc
    have hshape : metaTail (some ds) =
        delaysTok ++ serItems ds ++ endListTok := rfl
    rw [hshape, List.append_assoc, List.mem_append] at hc
    rcases hc with hc | hc
    · revert hc
      revert c
      decide
    · rw [List.mem_append] at hc
      rcases hc with hc | hc
      · exact serItems_no_newline ds c hc
      · revert hc
        revert c
        decide

theorem serializeMeta_no_newline (m : Metadata) :
    ∀ c ∈ serializeMeta m, (c = '\n' : Bool) = false := by
  obtain ⟨mc, md, mcol, mdel⟩ := m
  intro c hc
  unfold serializeMeta at hc
  simp only [List.append_assoc, List.mem_append] at hc
  rcases hc with hc | hc | hc | hc | hc | hc | hc
  · revert hc
    revert c
    decide
  · exact boolStr_no_newline mc c hc
  · revert hc
    revert c
    decide
  · exact boolStr_no_newline md c hc
  · revert hc
    revert c
    decide
  · exact boolStr_no_newline mcol c hc
  · exact metaTail_no_newline mdel c hc

theorem findIdx?_first (p : Char → Bool) (a : List Char) :
    ∀ (i : Nat) (b : Char) (rest : List Char), (∀ x ∈ a, p x = false) →
      p b = true → List.findIdx? p (a ++ b :: rest) i = some (i + a.length) := by
  induction a with
  | nil =>
    intro i b rest _ hb
    rw [List.nil_append, List.findIdx?_cons, if_pos hb]
    rfl
  | cons x xs ih =>
    intro i b rest ha hb
    rw [List.cons_append, List.findIdx?_cons,
      if_neg (by rw [ha x (List.mem_cons_self x xs)]; simp)]
    rw [ih (i + 1) b rest (fun y hy => ha y (List.mem_cons_of_mem x hy)) hb]
    congr 1
    simp only [List.length_cons]
    omega

theorem findIdx?_newline_sep (a b : List Char)
    (ha : ∀ x ∈ a, (x = '\n' : Bool) = false) :
    (a ++ '\n' :: b).findIdx? (fun c => (c = '\n' : Bool)) = some a.length := by
  have h := findIdx?_first (fun c => (c = '\n' : Bool)) a 0 '\n' b ha (by decide)
  rw [h]
  congr 1
  omega

/-- C3: the container round trip.  The encoder writes
`compress(json.dumps(metadata) + "\n" + content)`; for every lossless
compression pass (`decomp` a left inverse of `comp`, the contract the
external `zlib` pair satisfies), decoding recovers the metadata record and
the payload text exactly: the serialized metadata contains no newline, so
the first newline of the decompressed bytes is the separator. -/
theorem claim3_container_roundtrip (comp decomp : List Char → List Char)
    (hinv : ∀ x, decomp (comp x) = x) (m : Metadata) (content : List Char) :
    decompress_ascii decomp (save_ascii_file comp m content) =
      some (m, content) := by
  unfold decompress_ascii save_ascii_file
  rw [hinv]
  rw [findIdx?_newline_sep (serializeMeta m) content (serializeMeta_no_newline m)]
  show (parseMeta ((serializeMeta m ++ '\n' :: content).take
      (serializeMeta m).length)).map
    (fun mm => (mm, (serializeMeta m ++ '\n' :: content).drop
      ((serializeMeta m).length + 1))) = some (m, content)
  have hdrop : (serializeMeta m ++ '\n' :: content).drop
      ((serializeMeta m).length + 1) = content := by
    rw [show serializeMeta m ++ '\n' :: content =
      (serializeMeta m ++ ['\n']) ++ content from by simp]
    rw [show (serializeMeta m).length + 1 =
      (serializeMeta m ++ ['\n']).length from by simp]
    rw [List.drop_left]
  rw [List.take_left, hdrop, parseMeta_serializeMeta]
  rfl

/-- C3 witness: the round trip instantiated with the identity compression
pair on a concrete animation metadata record and a two-line payload. -/
theorem claim3_container_roundtrip_witness :
    (∀ x : List Char, id (id x) = x) ∧
      decompress_ascii id
          (save_ascii_file id ⟨true, true, true, some [120, 45]⟩ "ab\ncd".data) =
        some (⟨true, true, true, some [120, 45]⟩, "ab\ncd".data) :=
  ⟨fun _ => rfl,
    claim3_container_roundtrip id id (fun _ => rfl)
      ⟨true, true, true, some [120, 45]⟩ "ab\ncd".data⟩

/-- C4: the claim says container decoding must fail when the decompressed
bytes contain no newline; the code instead leaves `find`'s `-1` unchecked,
silently parses all but the last byte as metadata and returns the whole
decompressed text as payload.  On the newline-free input
`{"compressed": true, "diff": false, "color": true}X` the decoder succeeds
(returning the metadata record and a payload that still contains the
metadata bytes) instead of failing. -/
theorem claim4_no_newline_accepted :
    decompress_ascii id (serializeMeta ⟨true, false, true, none⟩ ++ ['X']) =
      some (⟨true, false, true, none⟩,
        serializeMeta ⟨true, false, true, none⟩ ++ ['X']) := by
  decide

/-!
`pixel_to_ascii` computes `int(brightness / 255 * 9)` with `brightness =
sum((r, g, b)) / 3` in Python floats, i.e. IEEE-754 binary64 arithmetic
with round-to-nearest-even division and multiplication.  The following
model evaluates exactly that: a nonnegative binary64 value is a pair
`(m, e)` meaning `m * 2 ^ e` with `m = 0` or `2 ^ 52 ≤ m < 2 ^ 53`, and
`ratToF64 p q` is the correctly rounded (nearest, ties to even) binary64
value of the exact rational `p / q`. -/

/-- Bit length of a natural number (fuel-bounded; fuel 128 covers every
number occurring in these computations). -/
def bitlenAux : Nat → Nat → Nat
  | 0, _ => 0
  | f + 1, n => if n = 0 then 0 else bitlenAux f (n / 2) + 1

def bitlen (n : Nat) : Nat := bitlenAux 128 n

/-- Round `a / b` to the nearest integer, ties to even (`b > 0`). -/
def roundNE (a b : Nat) : Nat :=
  let q := a / b
  let r := a % b
  if 2 * r < b then q
  else if b < 2 * r then q + 1
  else if q % 2 = 0 then q else q + 1

/-- Candidate mantissa of `p / q` at exponent `e`. -/
def mAt (p q : Nat) (e : Int) : Nat :=
  if 0 ≤ e then roundNE p (q * 2 ^ e.toNat)
  else roundNE (p * 2 ^ (-e).toNat) q

/-- Correctly rounded binary64 value of the rational `p / q` (normal range
only, which covers every value in this program's brightness computation). -/
def ratToF64 (p q : Nat) : Nat × Int :=
  if p = 0 then (0, 0)
  else
    let e0 : Int := (bitlen p : Int) - (bitlen q : Int) - 53
    let m0 := mAt p q e0
    let me :=
      if 2 ^ 53 ≤ m0 then (mAt p q (e0 + 1), e0 + 1)
      else if m0 < 2 ^ 52 then (mAt p q (e0 - 1), e0 - 1)
      else (m0, e0)
    if me.1 = 2 ^ 53 then (2 ^ 52, me.2 + 1) else me

/-- Binary64 division of a nonnegative binary64 value by a small natural
number (Python `x / n`). -/
def dyDivNat : Nat × Int → Nat → Nat × Int
  | (m, e), n =>
    if m = 0 then (0, 0)
    else if 0 ≤ e then ratToF64 (m * 2 ^ e.toNat) n
    else ratToF64 m (n * 2 ^ (-e).toNat)

/-- Binary64 multiplication of a nonnegative binary64 value by a small
natural number (Python `x * n`). -/
def dyMulNat : Nat × Int → Nat → Nat × Int
  | (m, e), n =>
    if m = 0 then (0, 0)
    else if 0 ≤ e then ratToF64 (m * n * 2 ^ e.toNat) 1
    else ratToF64 (m * n) (2 ^ (-e).toNat)

/-- Python `int(x)` on a nonnegative binary64 value (truncation = floor). -/
def dyFloor : Nat × Int → Nat
  | (m, e) => if 0 ≤ e then m * 2 ^ e.toNat else m / 2 ^ (-e).toNat

/-- `converter.py` `pixel_to_ascii`: the glyph index
`int(sum((r, g, b)) / 3 / 255 * (len(ASCII_CHARS) - 1))`, evaluated in
binary64 floats exactly as Python does. -/
def floatIdx (s : Nat) : Nat :=
  dyFloor (dyMulNat (dyDivNat (ratToF64 s 3) 255) 9)

/-- The glyph index of `converter.py` `pixel_to_ascii`, as a function of the
pixel components. -/
def char_index (r g b : Nat) : Nat := floatIdx (r + g + b)

/-- `converter.py` `pixel_to_ascii(pixel, color_mode)`: mode 0 is grayscale
(`ASCII_CHARS[i]`), mode 1 inverted grayscale (`ASCII_CHARS[::-1][i]`), any
other mode wraps the glyph in a 24-bit color escape and the `colorama`
reset `"\x1b[0m"`. -/
def pixel_to_ascii (r g b : Nat) (color_mode : Nat) : List Char :=
  if color_mode = 0 then [ASCII_CHARS.getD (char_index r g b) ' ']
  else if color_mode = 1 then
    [ASCII_CHARS.reverse.getD (char_index r g b) ' ']
  else
    "\x1b[38;2;".data ++ toDecimal r ++ [';'] ++ toDecimal g ++ [';'] ++
      toDecimal b ++ ['m'] ++ [ASCII_CHARS.getD (char_index r g b) ' '] ++
      "\x1b[0m".data

set_option maxRecDepth 10000 in
set_option maxHeartbeats 4000000 in
/-- Exhaustive check of the float evaluation over every possible component
sum: away from the single sum 425 it agrees with the exact formula
`floor(s * 9 / 765)`, and it never exceeds the last palette index. -/
theorem floatIdx_key : ∀ s : Nat, s < 766 →
    (s ≠ 425 → floatIdx s = s * 9 / 765) ∧ floatIdx s ≤ 9 := by
  decide

/-- C5 (counterexample to the claim as stated): the code computes the glyph
index in binary64 floats, and at the pixel `(141, 142, 142)` (component sum
425, whose exact index `floor(425 / 3 / 255 * 9)` is the integer 5) the
float evaluation rounds just below 5 and truncates to 4, so the index does
not equal the claimed clamped floor formula there: the grayscale glyph is
`'+'` instead of `'='`. -/
theorem claim5_counterexample :
    char_index 141 142 142 ≠ min ((141 + 142 + 142) * 9 / 765) 9 ∧
      char_index 141 142 142 = 4 ∧ (141 + 142 + 142) * 9 / 765 = 5 ∧
      pixel_to_ascii 141 142 142 0 = ['+'] := by
  refine ⟨by decide, by decide, by decide, by decide⟩

/-- C5 (amended): for every RGB triple with components in `[0, 255]` whose
component sum is not 425, the glyph index equals
`floor(mean(R,G,B) / 255 * (paletteSize - 1))` and the clamp to
`[0, paletteSize - 1]` is a no-op (at sum 425 the float evaluation yields 4
instead of 5); the index never exceeds 9; grayscale mode returns the palette
character at the index and inverted mode the character at the mirrored
index; brightness 0 maps to the densest glyph `'@'` in grayscale and the
sparsest `' '` in inverted mode, and brightness 255 maps oppositely. -/
theorem claim5_glyph_formula (r g b : Nat) (hr : r ≤ 255) (hg : g ≤ 255)
    (hb : b ≤ 255) :
    (r + g + b ≠ 425 →
      char_index r g b = (r + g + b) * 9 / 765 ∧
        min ((r + g + b) * 9 / 765) 9 = (r + g + b) * 9 / 765) ∧
      char_index r g b ≤ 9 ∧
      pixel_to_ascii r g b 0 = [ASCII_CHARS.getD (char_index r g b) ' '] ∧
      pixel_to_ascii r g b 1 =
        [ASCII_CHARS.getD (9 - char_index r g b) ' '] ∧
      pixel_to_ascii 0 0 0 0 = ['@'] ∧ pixel_to_ascii 0 0 0 1 = [' '] ∧
      pixel_to_ascii 255 255 255 0 = [' '] ∧
      pixel_to_ascii 255 255 255 1 = ['@'] := by
  have hs : r + g + b < 766 := by omega
  obtain ⟨hkey1, hkey2⟩ := floatIdx_key (r + g + b) hs
  refine ⟨?_, hkey2, rfl, ?_, by decide, by decide, by decide, by decide⟩
  · intro hne
    refine ⟨hkey1 hne, ?_⟩
    have hle : (r + g + b) * 9 / 765 ≤ 9 := by
      have h1 : (r + g + b) * 9 ≤ 765 * 9 := by omega
      have h2 : (r + g + b) * 9 / 765 ≤ 765 * 9 / 765 :=
        Nat.div_le_div_right h1
      simpa using h2
    omega
  · have hmirror : ∀ i ≤ 9,
        ASCII_CHARS.reverse.getD i ' ' = ASCII_CHARS.getD (9 - i) ' ' := by
      decide
    show [ASCII_CHARS.reverse.getD (char_index r g b) ' '] = _
    rw [hmirror (char_index r g b) hkey2]

/-- C5 witness: the amended formula at the pixel `(10, 20, 30)`. -/
theorem claim5_glyph_formula_witness :
    (10 ≤ 255 ∧ 20 ≤ 255 ∧ 30 ≤ 255) ∧
      ((10 + 20 + 30 ≠ 425 →
        char_index 10 20 30 = (10 + 20 + 30) * 9 / 765 ∧
          min ((10 + 20 + 30) * 9 / 765) 9 = (10 + 20 + 30) * 9 / 765) ∧
        char_index 10 20 30 ≤ 9 ∧
        pixel_to_ascii 10 20 30 0 =
          [ASCII_CHARS.getD (char_index 10 20 30) ' '] ∧
        pixel_to_ascii 10 20 30 1 =
          [ASCII_CHARS.getD (9 - char_index 10 20 30) ' '] ∧
        pixel_to_ascii 0 0 0 0 = ['@'] ∧ pixel_to_ascii 0 0 0 1 = [' '] ∧
        pixel_to_ascii 255 255 255 0 = [' '] ∧
        pixel_to_ascii 255 255 255 1 = ['@']) :=
  ⟨⟨by decide, by decide, by decide⟩,
    claim5_glyph_formula 10 20 30 (by decide) (by decide) (by decide)⟩

/-- `viewer.py`: `class Mode(Enum): AUTO = 1; STEP = 2` — `AUTO` is the
spec's `Playing`, `STEP` its `Paused`. -/
inductive Mode where
  | AUTO : Mode
  | STEP : Mode
deriving DecidableEq

/-- The mutable state of `display_ascii_loop`: playback mode, current frame
index and the pending-redraw flag.  The frame index is an `Int` because
Python computes `(frame_index - 1) % total_frames`, whose `%` on a negative
left operand agrees with `Int.emod`. -/
structure ViewState where
  mode : Mode
  frameIndex : Int
  draw : Bool
deriving DecidableEq

/-- Result of one iteration of the `while` loop of `display_ascii_loop`:
either the function returns (an action string) or the loop continues with
an updated state. -/
inductive StepOutcome where
  | exit : List Char → StepOutcome
  | cont : ViewState → StepOutcome
deriving DecidableEq

/-- `viewer.py` `display_ascii_loop`: the key handling and timer-expiry
branches of one loop iteration.  `key = none` models `get_keypress`
returning `None` (timer expiry). -/
def loopStep (total : Nat) (s : ViewState) (key : Option Char) :
    StepOutcome :=
  match key with
  | some k0 =>
    let k := k0.toLower
    if k = 'q' then .exit "quit".data
    else if k = 'd' then .exit "next".data
    else if k = 'a' then .exit "prev".data
    else if k = ' ' then
      .cont { s with
        mode := if s.mode = Mode.STEP then Mode.AUTO else Mode.STEP }
    else if k = 'x' then
      .cont { mode := Mode.STEP,
              frameIndex := (s.frameIndex - 1) % (total : Int), draw := true }
    else if k = 'c' then
      .cont { mode := Mode.STEP,
              frameIndex := (s.frameIndex + 1) % (total : Int), draw := true }
    else .cont s
  | none =>
    if s.mode = Mode.AUTO then
      .cont { mode := s.mode,
              frameIndex := (s.frameIndex + 1) % (total : Int),
              draw := decide (1 < total) }
    else .cont s

/-- `viewer.py` `display_ascii_loop` line
`if mode == Mode.AUTO and total_frames > 1`: whether the keypress wait gets
a finite timeout (a timer) at all. -/
def timerActive (total : Nat) (s : ViewState) : Bool :=
  decide (s.mode = Mode.AUTO) && decide (1 < total)

/-- The timer-expiry branch of `display_ascii_loop` (`key` falsy, mode
`AUTO`): `draw = total_frames > 1`, index advances with wraparound. -/
def timerStep (total : Nat) (s : ViewState) : ViewState :=
  { mode := s.mode,
    frameIndex := (s.frameIndex + 1) % (total : Int),
    draw := decide (1 < total) }

/-- `viewer.py` `display_ascii_loop` initial state: `frame_index = 0`,
`mode = Mode.AUTO`, `draw = True`. -/
def initState : ViewState :=
  { mode := Mode.AUTO, frameIndex := 0, draw := true }

/-- C7: for every playback state and total frame count `n ≥ 1`, a `'c'`
keypress forces `STEP` (the spec's `Paused`), sets the index to
`(i + 1) % n` and triggers a redraw; `'x'` forces `STEP` and sets the index
to `(i - 1) % n`; the updated index stays inside `[0, n)`; and in the
documented scenario — `'c'` while `Playing` on a 3-frame animation at
index 2 — the new state is `STEP` with index 0. -/
theorem claim7_step_keys (total : Nat) (s : ViewState) (htotal : 1 ≤ total) :
    loopStep total s (some 'c') =
      .cont { mode := Mode.STEP,
              frameIndex := (s.frameIndex + 1) % (total : Int),
              draw := true } ∧
      loopStep total s (some 'x') =
        .cont { mode := Mode.STEP,
                frameIndex := (s.frameIndex - 1) % (total : Int),
                draw := true } ∧
      (0 ≤ (s.frameIndex + 1) % (total : Int) ∧
        (s.frameIndex + 1) % (total : Int) < total ∧
        0 ≤ (s.frameIndex - 1) % (total : Int) ∧
        (s.frameIndex - 1) % (total : Int) < total) ∧
      loopStep 3 ⟨Mode.AUTO, 2, true⟩ (some 'c') =
        .cont ⟨Mode.STEP, 0, true⟩ := by
  have hpos : (0 : Int) < (total : Int) := by exact_mod_cast htotal
  have hne : (total : Int) ≠ 0 := by omega
  refine ⟨rfl, rfl, ?_, by decide⟩
  exact ⟨Int.emod_nonneg _ hne, Int.emod_lt_of_pos _ hpos,
    Int.emod_nonneg _ hne, Int.emod_lt_of_pos _ hpos⟩

/-- C7 witness: the key transitions at the concrete scenario state. -/
theorem claim7_step_keys_witness :
    1 ≤ 3 ∧
      (loopStep 3 ⟨Mode.AUTO, 2, true⟩ (some 'c') =
          .cont { mode := Mode.STEP,
                  frameIndex := ((2 : Int) + 1) % ((3 : Nat) : Int),
                  draw := true } ∧
        loopStep 3 ⟨Mode.AUTO, 2, true⟩ (some 'x') =
          .cont { mode := Mode.STEP,
                  frameIndex := ((2 : Int) - 1) % ((3 : Nat) : Int),
                  draw := true } ∧
        (0 ≤ ((2 : Int) + 1) % ((3 : Nat) : Int) ∧
          ((2 : Int) + 1) % ((3 : Nat) : Int) < 3 ∧
          0 ≤ ((2 : Int) - 1) % ((3 : Nat) : Int) ∧
          ((2 : Int) - 1) % ((3 : Nat) : Int) < 3) ∧
        loopStep 3 ⟨Mode.AUTO, 2, true⟩ (some 'c') =
          .cont ⟨Mode.STEP, 0, true⟩) :=
  ⟨by decide, claim7_step_keys 3 ⟨Mode.AUTO, 2, true⟩ (by decide)⟩

/-- C8: with exactly one frame the timer path never triggers a redraw.
First, no timer is even armed: the keypress wait has no timeout
(`timerActive 1 s = false` for every state), so the loop blocks
indefinitely for input.  Second, even granting timer expiries: a timer
expiry in `AUTO` mode takes the `timerStep` branch (`loopStep _ s none`),
and after any positive number of such steps from the initial state the
`draw` flag is `false` (it is set to `total_frames > 1`), so no frame is
re-rendered after the initial draw. -/
theorem claim8_single_frame_no_redraw (k : Nat) (hk : 1 ≤ k) :
    (∀ s : ViewState, timerActive 1 s = false) ∧
      (∀ s : ViewState, s.mode = Mode.AUTO →
        loopStep 1 s none = .cont (timerStep 1 s)) ∧
      ((timerStep 1)^[k] initState).draw = false := by
  refine ⟨?_, ?_, ?_⟩
  · intro s
    unfold timerActive
    simp
  · intro s hs
    unfold loopStep timerStep
    rw [if_pos hs]
  · match k, hk with
    | j + 1, _ =>
      rw [Function.iterate_succ_apply']
      rfl

/-- C8 witness: two elapsed display cycles on a single static frame. -/
theorem claim8_single_frame_no_redraw_witness :
    1 ≤ 2 ∧
      ((∀ s : ViewState, timerActive 1 s = false) ∧
        (∀ s : ViewState, s.mode = Mode.AUTO →
          loopStep 1 s none = .cont (timerStep 1 s)) ∧
        ((timerStep 1)^[2] initState).draw = false) :=
  ⟨by decide, claim8_single_frame_no_redraw 2 (by decide)⟩

end ImgToAscii
